import Mathlib

/-!
Verification development for the non-transitive dice game repository.
The repository has two near-duplicate variants:
* `src/unnamed/part_000` — the commit-reveal variant with class `FairRandom`
  (HMAC commitment, rejection sampler, interactive protocol);
* `src/task3.js` — the plain variant (bare `crypto.randomInt` draws, no
  commitment).
Shared classes `Dice`, `Probability`, `Game` appear in both files.
-/

/-- Errors raised by the JavaScript runtime in the modelled fragments.
`divisionByZero` models the `RangeError: Division by zero` thrown by a
BigInt `%` with zero divisor. -/
inductive JsError where
  | divisionByZero
deriving DecidableEq

/-- JavaScript BigInt remainder (`a % b`): truncated-division remainder,
throwing `RangeError` when the divisor is zero.  For a non-negative
dividend the result is non-negative. -/
def jsBigRem (a b : Int) : Except JsError Int :=
  if b = 0 then .error .divisionByZero else .ok (Int.tmod a b)

/-- The rejection threshold of `FairRandom.uniformRandom`
(`src/unnamed/part_000` line 38): `2^32 - (2^32 % range)`, stated with the
truncated remainder used by JavaScript BigInt. -/
def threshold (range : Int) : Int :=
  2 ^ 32 - Int.tmod (2 ^ 32) range

/-- Shallow embedding of `FairRandom.uniformRandom`
(`src/unnamed/part_000` lines 33-42).  The entropy source is made explicit
as the list `draws` of successive unsigned 32-bit big-endian values read
from `crypto.randomBytes(4)`.  Each loop iteration recomputes
`2^32 % range` (throwing on a zero divisor, exactly as the BigInt `%`
does), accepts a draw strictly below the threshold and returns
`Number(rnd % max)`, and otherwise retries with the next draw.  `none`
means the supplied draws were exhausted with every draw rejected. -/
def uniformRandom (range : Int) : List Nat → Except JsError (Option Int)
  | [] => .ok none
  | rnd :: rest =>
    match jsBigRem (2 ^ 32) range with
    | .error e => .error e
    | .ok m =>
      if (rnd : Int) < 2 ^ 32 - m then
        match jsBigRem (rnd : Int) range with
        | .error e => .error e
        | .ok v => .ok (some v)
      else
        uniformRandom range rest

/-- Shallow embedding of the value computed by `FairRandom.getResult`
(`src/unnamed/part_000` lines 72-77): `(userNum + this.number) % this.range`
where `number` is the committing party's secret value. -/
def getResult (range number userNum : Nat) : Nat :=
  (userNum + number) % range

/-- Auxiliary characterization of the sampler's loop: for a positive range
the run over a draw list never errors and returns exactly the image of the
first accepted draw. -/
theorem uniformRandom_eq_find (range : Int) (h1 : 1 ≤ range) (draws : List Nat) :
    uniformRandom range draws =
      .ok ((draws.find? fun d : Nat => decide ((d : Int) < threshold range)).map
        fun r : Nat => Int.tmod (r : Int) range) := by
  induction draws with
  | nil => rfl
  | cons rnd rest ih =>
    have hz : ¬ range = 0 := by omega
    simp only [uniformRandom, jsBigRem, if_neg hz, List.find?_cons, threshold]
    by_cases hcond : (rnd : Int) < 2 ^ 32 - Int.tmod (2 ^ 32) range
    · rw [if_pos hcond, decide_eq_true hcond]
      rfl
    · rw [if_neg hcond, decide_eq_false hcond]
      simpa [threshold] using ih

/-- C1.  For every range with `1 ≤ range ≤ 2^32`, `FairRandom.uniformRandom`
returns `r mod range` where `r` is the first unsigned 32-bit big-endian draw
from the entropy source with `r < 2^32 - (2^32 mod range)` (all earlier
draws being rejected), and consequently every returned value lies in
`[0, range)`. -/
theorem uniformRandom_spec (range : Int) (draws : List Nat)
    (h1 : 1 ≤ range) (h2 : range ≤ 2 ^ 32) :
    uniformRandom range draws =
        .ok ((draws.find? fun d : Nat => decide ((d : Int) < threshold range)).map
          fun r : Nat => Int.tmod (r : Int) range) ∧
      ∀ v : Int, uniformRandom range draws = .ok (some v) →
        0 ≤ v ∧ v < range := by
  refine ⟨uniformRandom_eq_find range h1 draws, ?_⟩
  intro v hv
  rw [uniformRandom_eq_find range h1 draws] at hv
  rcases hfind : draws.find? fun d : Nat => decide ((d : Int) < threshold range) with
    _ | r
  · rw [hfind] at hv; simp at hv
  · rw [hfind] at hv
    have hv' : Int.tmod (r : Int) range = v := by simpa using hv
    subst hv'
    refine ⟨Int.tmod_nonneg range (by positivity), ?_⟩
    exact Int.tmod_lt_of_pos _ (by omega)

/-- Witness for C1 at `range = 3` with draws `[2^32 - 1, 5]`: the first draw
is at the threshold `2^32 - 1` and is rejected, the second is accepted and
`5 mod 3 = 2` is returned, which lies in `[0, 3)`. -/
theorem uniformRandom_spec_witness :
    uniformRandom 3 [4294967295, 5] = .ok (some 2) ∧ 0 ≤ (2 : Int) ∧ (2 : Int) < 3 := by
  have h := uniformRandom_spec 3 [4294967295, 5] (by decide) (by decide)
  exact ⟨by rw [h.1]; rfl, h.2 2 (by rw [h.1]; rfl)⟩

/-- C2.  For every session over range `r ≥ 1` with committing secret
`s ∈ [0, r)` and counterpart value `v ∈ [0, r)`, the combined result of
`FairRandom.getResult` equals `(s + v) mod r` and lies in `[0, r)`. -/
theorem getResult_spec (r s v : Nat) (h1 : 1 ≤ r) (hs : s < r) (hv : v < r) :
    getResult r s v = (s + v) % r ∧ getResult r s v < r := by
  constructor
  · simp [getResult, Nat.add_comm]
  · exact Nat.mod_lt _ (by omega)

/-- Witness for C2 at `r = 2`, `s = 1`, `v = 1`: the result is
`(1 + 1) mod 2 = 0`, which is below 2. -/
theorem getResult_spec_witness : getResult 2 1 1 = (1 + 1) % 2 ∧ getResult 2 1 1 < 2 :=
  getResult_spec 2 1 1 (by decide) (by decide) (by decide)

/-- Counterexample to C5: at `range = -1` (a range below 1) the sampler does
not fail at all — the first draw `0` is below the threshold `2^32` and the
sampler returns the value `0 mod -1 = 0`, raising no error. -/
theorem uniformRandom_negative_range_returns :
    uniformRandom (-1) [0] = .ok (some 0) := by rfl

/-- C5 as amended.  Only `range = 0` makes the sampler fail: the first loop
iteration computes `2^32 % 0`, and the BigInt remainder with zero divisor
throws `RangeError: Division by zero`, so no value is returned; the error
is the runtime division-by-zero error, not a dedicated `InvalidRange`
error, and negative ranges are not rejected. -/
theorem uniformRandom_zero_range_throws (rnd : Nat) (rest : List Nat) :
    uniformRandom 0 (rnd :: rest) = .error .divisionByZero := by
  rfl

/-- The 4-byte big-endian encoding produced by `buf.writeUInt32BE(num)` on
the freshly allocated 4-byte buffer (`src/unnamed/part_000` lines 45-46). -/
def writeUInt32BE (num : Nat) : List Nat :=
  [num / 2 ^ 24 % 256, num / 2 ^ 16 % 256, num / 2 ^ 8 % 256, num % 256]

/-- Key preprocessing of the HMAC construction used by Node's
`crypto.createHmac`: a key longer than the hash's block size is first
hashed, then the key is zero-padded to the block size. -/
def hmacKeyBlock (digest : List Nat → List Nat) (blockSize : Nat)
    (key : List Nat) : List Nat :=
  let k := if blockSize < key.length then digest key else key
  k ++ List.replicate (blockSize - k.length) 0

/-- The HMAC construction over an underlying digest:
`digest ((k0 xor opad) ++ digest ((k0 xor ipad) ++ msg))` with
`opad = 0x5c` and `ipad = 0x36` repeated over the block. -/
def hmac (digest : List Nat → List Nat) (blockSize : Nat)
    (key msg : List Nat) : List Nat :=
  let k0 := hmacKeyBlock digest blockSize key
  digest ((k0.map fun b => b ^^^ 0x5c) ++ digest ((k0.map fun b => b ^^^ 0x36) ++ msg))

/-- Shallow embedding of `FairRandom.calcHMAC`
(`src/unnamed/part_000` lines 43-49): the HMAC of the 4-byte big-endian
encoding of `num` under `this.key`.  The underlying digest (SHA3-256 in
the source, block size 136 bytes) is kept as an explicit parameter; every
instantiation of `digest` yields a deterministic commitment function. -/
def calcHMAC (digest : List Nat → List Nat) (key : List Nat) (num : Nat) :
    List Nat :=
  hmac digest 136 key (writeUInt32BE num)

/-- Modelled from the spec: the source has no `verify` routine (the reveal
step only prints the key and the number), so reveal-time verification is
taken from spec section 4.2 — recompute `commit(secretValue, key)` and
compare for exact equality against the given commitment. -/
def verify (digest : List Nat → List Nat) (commitment : List Nat)
    (num : Nat) (key : List Nat) : Bool :=
  calcHMAC digest key num == commitment

/-- C4.  For every underlying digest, key and secret value,
`verify (commit secretValue key) secretValue key` returns `true`:
`calcHMAC` is a deterministic function of `(secretValue, key)`, and
verification recomputes it and compares for exact equality. -/
theorem verify_calcHMAC (digest : List Nat → List Nat) (key : List Nat)
    (num : Nat) : verify digest (calcHMAC digest key num) num key = true := by
  simp [verify]

/-- Protocol-visible events of one `FairRandom` session, indexed by a
session identifier: showing the commitment (`showHMAC`), requesting the
counterpart's value (`getUserNumber`), and revealing key and secret
(`reveal`). -/
inductive ProtoEvent where
  | showCommit : Nat → ProtoEvent
  | requestCounterpart : Nat → ProtoEvent
  | reveal : Nat → ProtoEvent
deriving DecidableEq

/-- Event trace of `FairRandom.getResult` for session `s`
(`src/unnamed/part_000` lines 72-77): `this.showHMAC()`, then
`this.getUserNumber()`, then `this.reveal()`. -/
def getResultEvents (s : Nat) : List ProtoEvent :=
  [.showCommit s, .requestCounterpart s, .reveal s]

/-- Event trace of the fairness-sensitive draws of `Game.play` in the
commit-reveal variant (`src/unnamed/part_000` lines 145-197): the
turn-order draw (session 0, `frp.getResult()`, line 152), the user's roll
(session 1, `userRoll.getResult()`, line 177) and the computer's roll
(session 2, inlined as `showHMAC`; `getUserNumber`; `reveal`,
lines 183-185).  Dice selection between the draws emits no protocol
events: it requests no counterpart value and shows no commitment. -/
def playEventsCommitReveal : List ProtoEvent :=
  getResultEvents 0 ++ getResultEvents 1 ++
    [.showCommit 2, .requestCounterpart 2, .reveal 2]

/-- Event trace of the turn-order draw of `Game.play` in the plain variant
(`src/task3.js` lines 117-126): the user's number is requested
(`getUserNumber(2)`, line 118) and the computer then draws
`crypto.randomInt(0, 2)`; no commitment is ever shown and nothing is
revealed.  The subsequent rolls (`crypto.randomInt` on lines 144 and 148)
request no counterpart value. -/
def playEventsPlain : List ProtoEvent :=
  [.requestCounterpart 0]

/-- Checks that along a trace every request for the counterpart's value of
session `s` is preceded by showing the commitment of session `s`; the
first argument accumulates the sessions whose commitment has been shown. -/
def commitShownBeforeRequest : List Nat → List ProtoEvent → Bool
  | _, [] => true
  | shown, .showCommit s :: rest => commitShownBeforeRequest (s :: shown) rest
  | shown, .requestCounterpart s :: rest =>
      shown.contains s && commitShownBeforeRequest shown rest
  | shown, .reveal _ :: rest => commitShownBeforeRequest shown rest

/-- Counterexample to C3: in the plain variant (`src/task3.js`), the
turn-order draw requests the counterpart's (user's) value although no
commitment has been shown — the commitment step is skipped entirely, so
the claim fails for that fairness-sensitive draw. -/
theorem plain_variant_requests_without_commitment :
    commitShownBeforeRequest [] playEventsPlain = false := by
  rfl

/-- C3 as amended.  In the commit-reveal variant (`src/unnamed/part_000`),
every fairness-sensitive draw — the turn-order draw and both die rolls —
shows the committing party's commitment before the counterpart's value is
requested; in the plain variant (`src/task3.js`) the turn-order draw
requests the user's value with no commitment step at all. -/
theorem commitReveal_variant_commits_before_request :
    commitShownBeforeRequest [] playEventsCommitReveal = true := by
  rfl

/-- The deciding value of the turn-order phase of the commit-reveal
variant's `Game.play` (`src/unnamed/part_000` line 153):
`(frp.number + firstUserNum) % 2` where `firstUserNum` is the value
returned by `frp.getResult()`. -/
def firstSum (number userNum : Nat) : Nat :=
  (number + getResult 2 number userNum) % 2

/-- C9.  The turn-order deciding value adds `frp.number` a second time on
top of `getResult` (which already returns `(userNum + number) % 2`), so it
collapses to `userNum % 2` for every computer secret `n` and user number
`u` — it is independent of the computer's secret number. -/
theorem firstSum_eq_userNum_mod_two (n u : Nat) : firstSum n u = u % 2 := by
  unfold firstSum getResult
  omega

/-- Shallow embedding of class `Dice` (both files, lines 4-9): an ordered
list of non-negative integer faces; the constructor throws unless there is
at least one face, so nonemptiness is an invariant of every constructed
die. -/
structure Dice where
  faces : List Nat
  faces_nonempty : faces ≠ []

/-- The sequence of ordered pairs visited by the nested
`for (let a of d1.faces) for (let b of d2.faces)` loops of
`Probability.winProb`. -/
def listProd : List Nat → List Nat → List (Nat × Nat)
  | [], _ => []
  | a :: l1, l2 => (l2.map fun b => (a, b)) ++ listProd l1 l2

/-- Shallow embedding of `Probability.winProb` (both files; lines 80-88 of
`src/unnamed/part_000`, lines 26-34 of `src/task3.js`): `total` counts
every visited ordered pair, `wins` counts the pairs with `a > b`, and the
returned probability is `wins / total`, read as an exact rational. -/
def winProb (d1 d2 : Dice) : ℚ :=
  (((listProd d1.faces d2.faces).countP fun p => decide (p.2 < p.1) : Nat) : ℚ) /
    (((listProd d1.faces d2.faces).length : Nat) : ℚ)

/-- Modelled from the spec: the tie probability `P(tie)` of section 4.4 is
not computed anywhere in the source; it is the fraction of ordered pairs
`(x, y)` with `x == y` over the same pair space as `winProb`. -/
def tieProb (d1 d2 : Dice) : ℚ :=
  (((listProd d1.faces d2.faces).countP fun p => decide (p.1 = p.2) : Nat) : ℚ) /
    (((listProd d1.faces d2.faces).length : Nat) : ℚ)

/-- The number of winning ordered index pairs of the spec's formulation:
over all `|a.faces| × |b.faces|` ordered positions `(i, j)`, those where
the face of `a` at `i` strictly exceeds the face of `b` at `j`. -/
def winPairCount (d1 d2 : Dice) : Nat :=
  ((Finset.range d1.faces.length ×ˢ Finset.range d2.faces.length).filter
    fun p => d2.faces.getD p.2 0 < d1.faces.getD p.1 0).card

/-- A list's Boolean count as a sum over positions. -/
theorem countP_eq_sum_range {α : Type} (d : α) (p : α → Bool) (l : List α) :
    l.countP p =
      ∑ i ∈ Finset.range l.length, if p (l.getD i d) = true then 1 else 0 := by
  induction l with
  | nil => rfl
  | cons a l ih =>
    rw [List.countP_cons, List.length_cons, Finset.sum_range_succ']
    simp only [List.getD_cons_succ, List.getD_cons_zero]
    rw [ih]

/-- The pair count of the nested loops as a double sum over positions. -/
theorem listProd_countP (p : Nat × Nat → Bool) (l1 l2 : List Nat) :
    (listProd l1 l2).countP p =
      ∑ i ∈ Finset.range l1.length, ∑ j ∈ Finset.range l2.length,
        if p (l1.getD i 0, l2.getD j 0) = true then 1 else 0 := by
  induction l1 with
  | nil => rfl
  | cons a l1 ih =>
    rw [listProd, List.countP_append, List.countP_map, List.length_cons,
      Finset.sum_range_succ']
    simp only [List.getD_cons_succ, List.getD_cons_zero]
    rw [ih, countP_eq_sum_range 0 (p ∘ fun b => (a, b)) l2]
    simp only [Function.comp]
    exact Nat.add_comm _ _

/-- The nested loops visit exactly `|d1.faces| * |d2.faces|` pairs. -/
theorem listProd_length (l1 l2 : List Nat) :
    (listProd l1 l2).length = l1.length * l2.length := by
  induction l1 with
  | nil => simp [listProd]
  | cons a l1 ih =>
    rw [listProd, List.length_append, List.length_map, List.length_cons, ih]
    ring

/-- C6.  For every pair of dice, `winProb` equals the number of ordered
pairs `(x, y)` with `x` a face of the first die, `y` a face of the second
and `x > y`, divided by the product of the face counts; ties contribute to
neither count since the win condition is strict. -/
theorem winProb_spec (d1 d2 : Dice) :
    winProb d1 d2 =
      (winPairCount d1 d2 : ℚ) /
        ((d1.faces.length * d2.faces.length : Nat) : ℚ) := by
  have hc : ((listProd d1.faces d2.faces).countP fun p => decide (p.2 < p.1)) =
      winPairCount d1 d2 := by
    rw [listProd_countP, winPairCount, Finset.card_filter, Finset.sum_product]
    simp
  rw [winProb, hc, listProd_length]

/-- The first non-transitive die of the spec's concrete scenario. -/
def diceA : Dice := ⟨[2, 2, 4, 4, 9, 9], by decide⟩

/-- The second non-transitive die of the spec's concrete scenario. -/
def diceB : Dice := ⟨[1, 1, 6, 6, 8, 8], by decide⟩

/-- The third non-transitive die of the spec's concrete scenario. -/
def diceC : Dice := ⟨[3, 3, 5, 5, 7, 7], by decide⟩

/-- C7.  On the concrete dice `A = [2,2,4,4,9,9]`, `B = [1,1,6,6,8,8]`,
`C = [3,3,5,5,7,7]`, the pairwise win probabilities `A` over `B`, `B` over
`C` and `C` over `A` all equal `5/9`, each strictly above `1/2` — a
win-probability cycle. -/
theorem winProb_cycle :
    winProb diceA diceB = 5 / 9 ∧ winProb diceB diceC = 5 / 9 ∧
      winProb diceC diceA = 5 / 9 ∧ (1 : ℚ) / 2 < winProb diceA diceB ∧
      (1 : ℚ) / 2 < winProb diceB diceC ∧ (1 : ℚ) / 2 < winProb diceC diceA := by
  have h1 : winProb diceA diceB = 5 / 9 := by
    rw [winProb,
      show ((listProd diceA.faces diceB.faces).countP fun p => decide (p.2 < p.1)) = 20
        from rfl,
      show (listProd diceA.faces diceB.faces).length = 36 from rfl]
    norm_num
  have h2 : winProb diceB diceC = 5 / 9 := by
    rw [winProb,
      show ((listProd diceB.faces diceC.faces).countP fun p => decide (p.2 < p.1)) = 20
        from rfl,
      show (listProd diceB.faces diceC.faces).length = 36 from rfl]
    norm_num
  have h3 : winProb diceC diceA = 5 / 9 := by
    rw [winProb,
      show ((listProd diceC.faces diceA.faces).countP fun p => decide (p.2 < p.1)) = 20
        from rfl,
      show (listProd diceC.faces diceA.faces).length = 36 from rfl]
    norm_num
  refine ⟨h1, h2, h3, ?_, ?_, ?_⟩
  · rw [h1]; norm_num
  · rw [h2]; norm_num
  · rw [h3]; norm_num

/-- Every visited pair is strictly greater one way, strictly greater the
other way, or tied — the three counts partition the pair space. -/
theorem countP_trichotomy (l : List (Nat × Nat)) :
    (l.countP fun p => decide (p.2 < p.1)) +
        (l.countP fun p => decide (p.1 < p.2)) +
        (l.countP fun p => decide (p.1 = p.2)) = l.length := by
  induction l with
  | nil => rfl
  | cons a l ih =>
    simp only [List.countP_cons, List.length_cons]
    rcases Nat.lt_trichotomy a.1 a.2 with h | h | h
    · rw [if_neg (by simpa using Nat.lt_asymm h), if_pos (by simpa using h),
        if_neg (by simpa using Nat.ne_of_lt h)]
      omega
    · rw [if_neg (by simp [h]), if_neg (by simp [h]), if_pos (by simp [h])]
      omega
    · rw [if_pos (by simpa using h), if_neg (by simpa using Nat.lt_asymm h),
        if_neg (by simpa using Nat.ne_of_gt h)]
      omega

/-- Reversing the roles of the dice transposes the pair space. -/
theorem listProd_countP_swap (p : Nat × Nat → Bool) (l1 l2 : List Nat) :
    (listProd l2 l1).countP p =
      (listProd l1 l2).countP fun q => p (q.2, q.1) := by
  rw [listProd_countP, listProd_countP, Finset.sum_comm]

/-- C8.  For every pair of dice with the same number of faces,
`winProb d1 d2 + winProb d2 d1 + P(tie) = 1`, where `P(tie)` is the
fraction of tied ordered pairs over the same pair space. -/
theorem winProb_add_winProb_add_tieProb (d1 d2 : Dice)
    (h : d1.faces.length = d2.faces.length) :
    winProb d1 d2 + winProb d2 d1 + tieProb d1 d2 = 1 := by
  have hswap : ((listProd d2.faces d1.faces).countP fun p => decide (p.2 < p.1)) =
      (listProd d1.faces d2.faces).countP fun q => decide (q.1 < q.2) := by
    rw [listProd_countP_swap]
  have hsum := countP_trichotomy (listProd d1.faces d2.faces)
  have hpos : 0 < d1.faces.length * d2.faces.length :=
    Nat.mul_pos (List.length_pos.mpr d1.faces_nonempty)
      (List.length_pos.mpr d2.faces_nonempty)
  have hN : (((d1.faces.length * d2.faces.length : Nat)) : ℚ) ≠ 0 :=
    Nat.cast_ne_zero.mpr (by omega)
  rw [winProb, winProb, tieProb, hswap, listProd_length, listProd_length,
    Nat.mul_comm d2.faces.length]
  rw [div_add_div_same, div_add_div_same, ← Nat.cast_add, ← Nat.cast_add]
  rw [listProd_length] at hsum
  rw [hsum]
  exact div_self hN

/-- Witness for C8 on the concrete equal-sized dice `A` and `B`: the win
probabilities of `A` over `B` and `B` over `A` and the tie probability sum
to 1. -/
theorem winProb_add_witness :
    winProb diceA diceB + winProb diceB diceA + tieProb diceA diceB = 1 :=
  winProb_add_winProb_add_tieProb diceA diceB rfl

/-- The candidate indices for the computer's pick when the user selected
first: all die indices except the user's
(`[...Array(this.dice.length).keys()].filter(i => i !== userDice)` at
`src/unnamed/part_000` line 163, `this.dice.map((_, i) => i).filter(...)`
at `src/task3.js` line 131). -/
def remainingIndices (n exclude : Nat) : List Nat :=
  (List.range n).filter fun i => i != exclude

/-- The computer's die when the user selects first: entry `k` of the
remaining indices, where `k` is the random index drawn below
`this.dice.length - 1` (`src/unnamed/part_000` line 163) respectively
below `choices.length` (`src/task3.js` line 132). -/
def compPickUserFirst (n userDice k : Nat) : Nat :=
  (remainingIndices n userDice).getD k 0

/-- Shallow embedding of the accepting loop of `Game.selectDice` (both
files): `answers` is the stream of numeric values `Number(ans)` typed by
the user, each turned into the index `idx = Number(ans) - 1` and accepted
exactly when `idx >= 0 && idx < this.dice.length && idx !== exclude`;
rejected inputs repeat the loop on the remaining answers.  The help and
exit choices are orchestration and produce no index. -/
def selectDice (n : Nat) (exclude : Option Nat) : List Int → Option Nat
  | [] => none
  | a :: rest =>
    let idx := a - 1
    if 0 ≤ idx && idx < (n : Int) && exclude.all fun e : Nat => idx != (e : Int) then
      some idx.toNat
    else
      selectDice n exclude rest

/-- Removing one present index from `range n` leaves `n - 1` indices. -/
theorem remainingIndices_length (n u : Nat) (h : u < n) :
    (remainingIndices n u).length = n - 1 := by
  induction n with
  | zero => omega
  | succ m ih =>
    rw [remainingIndices, List.range_succ, List.filter_append]
    by_cases hu : u = m
    · subst hu
      have hself : (List.range u).filter (fun i => i != u) = List.range u := by
        apply List.filter_eq_self.mpr
        intro a ha
        have := List.mem_range.mp ha
        simp
        omega
      simp [hself]
    · have hu' : u < m := by omega
      have hm := ih hu'
      rw [remainingIndices] at hm
      have hkeep : (m != u) = true := by simp; omega
      simp [List.length_append, hm, hkeep]
      omega

/-- C10.  In both variants the computer's die is distinct from the user's:
when the user selects first, the computer's pick is taken from the
remaining indices only, and when the computer selects first, the user's
selection loop accepts no answer equal to the excluded index.  Either way
the accepted index is a valid die index. -/
theorem diceSelection_distinct :
    (∀ n u k, u < n → k < n - 1 →
        compPickUserFirst n u k ≠ u ∧ compPickUserFirst n u k < n) ∧
      ∀ n c answers u, selectDice n (some c) answers = some u →
        u ≠ c ∧ u < n := by
  constructor
  · intro n u k hu hk
    have hlen : k < (remainingIndices n u).length := by
      rw [remainingIndices_length n u hu]; omega
    have hmem : (remainingIndices n u).getD k 0 ∈ remainingIndices n u := by
      rw [List.getD_eq_getElem _ _ hlen]
      exact List.getElem_mem _
    rw [remainingIndices] at hmem
    have hf := List.mem_filter.mp hmem
    refine ⟨?_, ?_⟩
    · have hb := hf.2
      intro hEq
      rw [compPickUserFirst, remainingIndices] at hEq
      rw [hEq] at hb
      simp at hb
    · have := List.mem_range.mp hf.1
      rw [compPickUserFirst, remainingIndices]
      exact this
  · intro n c answers u
    induction answers with
    | nil => intro hsel; simp [selectDice] at hsel
    | cons a rest ih =>
      intro hsel
      rw [selectDice] at hsel
      by_cases hcond :
          (0 ≤ a - 1 && a - 1 < (n : Int) &&
            (Option.some c).all fun e : Nat => a - 1 != (e : Int)) = true
      · rw [if_pos hcond] at hsel
        have hu : (a - 1).toNat = u := by
          simpa using hsel
        simp only [Bool.and_eq_true, decide_eq_true_eq, Option.all_some,
          bne_iff_ne, ne_eq] at hcond
        obtain ⟨⟨h0, hn⟩, hne⟩ := hcond
        constructor
        · intro hEq
          apply hne
          omega
        · omega
      · rw [if_neg hcond] at hsel
        exact ih hsel

/-- Witness for C10: with three dice, after the user takes index 0 the
computer's first remaining choice is index 1, distinct from 0 and valid;
conversely with index 1 excluded the answer stream `[2, 3]` first offers
the excluded index 1 (rejected) and then index 2, which is accepted,
distinct from 1 and valid. -/
theorem diceSelection_distinct_witness :
    (compPickUserFirst 3 0 0 ≠ 0 ∧ compPickUserFirst 3 0 0 < 3) ∧
      (2 : Nat) ≠ 1 ∧ (2 : Nat) < 3 :=
  ⟨diceSelection_distinct.1 3 0 0 (by decide) (by decide),
    diceSelection_distinct.2 3 1 [2, 3] 2 (by rfl)⟩
